import Mathlib

set_option maxHeartbeats 1000000

/-- Subtitle text is modelled as a list of characters. -/
abbrev Str := List Char

/-- Whitespace test for the ASCII whitespace characters stripped by str.strip. -/
def pyIsSpace (c : Char) : Bool :=
  c = ' ' || c = '\t' || c = '\n' || c = '\r' || c.toNat = 11 || c.toNat = 12

/-- Blank test: true exactly when the string is empty or whitespace only,
which is when the stripped string is falsy in the source. -/
def isBlank (s : Str) : Bool := s.all pyIsSpace

/-- Break a string at the first occurrence of a character, returning the part
before it and the part after it. -/
def breakAt (ch : Char) : Str → Option (Str × Str)
  | [] => none
  | c :: cs =>
    if c = ch then some ([], cs)
    else
      match breakAt ch cs with
      | none => none
      | some (a, b) => some (c :: a, b)
/-- Fuelled tag-delimiter split.  One step finds the next brace-delimited tag
span, exactly as the regex split with the capturing tag pattern does: a tag
runs from a left brace to the first right brace after it. -/
def splitTagsF : Nat → Str → List Str
  | 0, s => [s]
  | fuel + 1, s =>
    match breakAt '{' s with
    | none => [s]
    | some (c, r) =>
      match breakAt '}' r with
      | none => [s]
      | some (b, r2) => c :: ('{' :: (b ++ ['}'])) :: splitTagsF fuel r2

/-- Tag-delimiter split of a line into alternating content and tag spans,
keeping empty spans, as the regex split in the source does. -/
def splitTags (s : Str) : List Str := splitTagsF s.length s
/-- Test whether a span starts with a left brace, as the startswith check does. -/
def startsOpen : Str → Bool
  | [] => false
  | c :: _ => c = '{'

/-- Test whether a span ends with a right brace, as the endswith check does. -/
def endsClose : Str → Bool
  | [] => false
  | [c] => c = '}'
  | _ :: c :: cs => endsClose (c :: cs)

/-- Tag test from the source: the span starts with a left brace and ends with
a right brace. -/
def isTag (p : Str) : Bool := startsOpen p && endsClose p
/-- Translation capability injected into the segmented translator: an error
value models a raised exception, ok none models a returned null, and
ok some models a returned string. -/
abbrev Translator := Str → Except Unit (Option Str)

/-- Per-span processing of translate_text in subtitle_translator.py, paired
with the number of translator invocations this span causes.  Tag spans pass
through, blank spans pass through, other spans are translated with a fallback
to the original text on exception or on a falsy result. -/
def translate_one_part_c (tr : Translator) (part : Str) : Str × Nat :=
  if isTag part then (part, 0)
  else if isBlank part = false then
    match tr part with
    | Except.error _ => (part, 1)
    | Except.ok none => (part, 1)
    | Except.ok (some t) => (if t.isEmpty then part else t, 1)
  else (part, 0)

/-- Per-span processing of translate_text, result string only. -/
def translate_one_part (tr : Translator) (part : Str) : Str :=
  (translate_one_part_c tr part).1

/-- Model of translate_text in subtitle_translator.py: blank lines are
returned unchanged, otherwise the line is split at tag spans, each span is
processed, and the results are concatenated in order. -/
def translate_text (text : Str) (tr : Translator) : Str :=
  if isBlank text then text
  else ((splitTags text).map (translate_one_part tr)).flatten

/-- Tag spans of a line: the spans of the tag-delimiter split that satisfy the
tag test of the source. -/
def tagsOf (s : Str) : List Str := (splitTags s).filter isTag
/-- Concatenation of the processed spans of one line, the loop body of
translate_text. -/
def runParts (tr : Translator) (s : Str) : Str :=
  ((splitTags s).map (translate_one_part tr)).flatten

/-- Identity translation capability: returns every span unchanged and never
fails. -/
def trId : Translator := fun s => Except.ok (some s)

/-- Always-failing translation capability: raises on every span. -/
def trFail : Translator := fun _ => Except.error ()

/-- Constant translation capability returning a fixed brace-free string. -/
def trConst : Translator := fun _ => Except.ok (some ['T'])

/-- Translation capability whose returned string contains a brace-delimited
span of its own. -/
def trBrace : Translator := fun _ => Except.ok (some ['{', 'x', '}'])

/-- Translation capability that returns the empty string on every span. -/
def trEmpty : Translator := fun _ => Except.ok (some [])

/-- Translation cache of the web variant: an association list from fingerprint
keys to raw translator results, which can be null. -/
abbrev Cache := List (Str × Option Str)

/-- Lookup in the translation cache. -/
def lookupCache : Cache → Str → Option (Option Str)
  | [], _ => none
  | (k, v) :: rest, key => if k = key then some v else lookupCache rest key

/-- State of the cached Google path: the translation cache plus a count of
translator invocations. -/
structure GState where
  cache : Cache
  calls : Nat
deriving DecidableEq

/-- Provider identifier of the Google path. -/
def strGoogle : Str := ['g', 'o', 'o', 'g', 'l', 'e']

/-- Sentinel language code for automatic source language detection. -/
def strAuto : Str := ['a', 'u', 't', 'o']

/-- Fingerprint of a cache entry from get_cache_key in app.py; the md5 hex
digest of the fingerprint content is modelled by the content string itself. -/
def get_cache_key (text source target provider : Str) : Str :=
  text ++ '|' :: (source ++ '|' :: (target ++ '|' :: provider))

/-- Per-span step of translate_with_google_batch in app.py: tag spans and
blank spans pass through; other spans are looked up in the cache first, and on
a hit the raw stored value is appended, possibly null.  On a miss the
translator is invoked, its raw result is stored in the cache, and a falsy
result falls back to the original span text; a raised exception falls back to
the original span text without storing anything. -/
def google_part (tr : Translator) (src tgt : Str) (st : GState) (part : Str) :
    Option Str × GState :=
  if isTag part then (some part, st)
  else if isBlank part = false then
    match lookupCache st.cache (get_cache_key part src tgt strGoogle) with
    | some v => (v, st)
    | none =>
      match tr part with
      | Except.error _ => (some part, { cache := st.cache, calls := st.calls + 1 })
      | Except.ok t =>
        ((match t with
          | none => some part
          | some u => if u.isEmpty then some part else some u),
         { cache := (get_cache_key part src tgt strGoogle, t) :: st.cache,
           calls := st.calls + 1 })
  else (some part, st)

/-- Left-to-right processing of the spans of one line in the Google path. -/
def google_parts (tr : Translator) (src tgt : Str) : GState → List Str →
    List (Option Str) × GState
  | st, [] => ([], st)
  | st, p :: ps =>
    ((google_part tr src tgt st p).1 ::
        (google_parts tr src tgt (google_part tr src tgt st p).2 ps).1,
      (google_parts tr src tgt (google_part tr src tgt st p).2 ps).2)

/-- Joining of the collected parts of one line: a null element makes the join
itself raise, modelled by a none result. -/
def joinPy : List (Option Str) → Option Str
  | [] => some []
  | none :: _ => none
  | some s :: rest => (joinPy rest).map (fun t => s ++ t)

/-- Processing of one text of the batch in translate_with_google_batch: blank
texts pass through, otherwise the text is split at tag spans, the spans are
processed against the cache and the results joined. -/
def google_text (tr : Translator) (src tgt : Str) (st : GState) (text : Str) :
    Option Str × GState :=
  if isBlank text then (some text, st)
  else
    (joinPy (google_parts tr src tgt st (splitTags text)).1,
      (google_parts tr src tgt st (splitTags text)).2)

/-- Loop of translate_with_google_batch over the batch texts; a failing join
aborts the whole call, modelled by a none result. -/
def google_texts (tr : Translator) (src tgt : Str) : GState → List Str →
    Option (List Str) × GState
  | st, [] => (some [], st)
  | st, t :: ts =>
    match (google_text tr src tgt st t).1 with
    | none => (none, (google_text tr src tgt st t).2)
    | some s =>
      ((google_texts tr src tgt (google_text tr src tgt st t).2 ts).1.map
          (fun l => s :: l),
        (google_texts tr src tgt (google_text tr src tgt st t).2 ts).2)

/-- Model of translate_with_google_batch in app.py, including the identity
adjustment of the auto source language sentinel. -/
def translate_with_google_batch (tr : Translator) (source_lang target_lang : Str)
    (st : GState) (texts : List Str) : Option (List Str) × GState :=
  google_texts tr (if source_lang = strAuto then strAuto else source_lang)
    target_lang st texts

/-- Subtitle event: the text and the comment flag are the only fields the
source consults. -/
structure Event where
  text : Str
  is_comment : Bool
deriving DecidableEq

/-- Per-event step of the translation loop of translate_subtitles in
subtitle_translator.py, paired with the number of translate_text invocations
it causes: comment events are filtered out before the loop and events with
falsy text are skipped inside it. -/
def translate_event_c (tr : Translator) (e : Event) : Event × Nat :=
  if e.is_comment then (e, 0)
  else if e.text.isEmpty then (e, 0)
  else ({ e with text := translate_text e.text tr }, 1)

/-- Document after the translation loop of translate_subtitles. -/
def translate_subtitles_run (tr : Translator) (events : List Event) : List Event :=
  events.map (fun e => (translate_event_c tr e).1)

/-- Number of translate_text invocations performed by the loop of
translate_subtitles. -/
def translate_subtitles_calls (tr : Translator) (events : List Event) : Nat :=
  (events.map (fun e => (translate_event_c tr e).2)).sum

/-- Model of translate_subtitles in subtitle_translator.py: a document with no
dialogue events makes the run fail before any translation and nothing is
saved, modelled by none; otherwise the translated document is saved. -/
def translate_subtitles_model (tr : Translator) (events : List Event) :
    Option (List Event) :=
  if (events.filter (fun e => !e.is_comment)).isEmpty then none
  else some (translate_subtitles_run tr events)

/-- Assignment of one translated string to one event in translate_subtitle in
app.py: without a string the event keeps its text; with a string the text is
replaced, and in dual mode the translated text is joined to the original text
by the forced line break marker, translated text first. -/
def update_event (dual : Bool) (e : Event) (t : Option Str) : Event :=
  match t with
  | none => e
  | some s => { e with text := if dual then s ++ '\\' :: 'N' :: e.text else s }

/-- Application of the strings returned by one batch call to the events of the
batch: event j receives translated string j when j is below the returned
count and silently keeps its text otherwise. -/
def apply_batch (dual : Bool) : List Event → List Str → List Event
  | [], _ => []
  | e :: es, [] => e :: apply_batch dual es []
  | e :: es, t :: ts => update_event dual e (some t) :: apply_batch dual es ts

/-- Fuelled batching loop of translate_subtitle over the dialogue events. -/
def translate_batchesF (dual : Bool) (bs : Nat) (provider : List Str → List Str) :
    Nat → List Event → List Event
  | _, [] => []
  | 0, _ :: _ => []
  | fuel + 1, e :: rest =>
    apply_batch dual (e :: rest.take (bs - 1))
        (provider ((e :: rest.take (bs - 1)).map (fun ev => ev.text))) ++
      translate_batchesF dual bs provider fuel (rest.drop (bs - 1))

/-- Batching loop of translate_subtitle over the dialogue events: the list is
sliced into batches of the batch size and the provider is called once per
batch.  The slicing agrees with the source for every positive batch size, the
only sizes the interface offers; a zero size degenerates to single-event
batches here where the source would raise. -/
def translate_batches (dual : Bool) (bs : Nat) (provider : List Str → List Str)
    (dials : List Event) : List Event :=
  translate_batchesF dual bs provider dials.length dials

/-- In-place mutation of the dialogue events inside the full document: the
events of the document in order, with the non-comment events replaced one by
one by the translated events. -/
def scatter : List Event → List Event → List Event
  | [], _ => []
  | e :: es, repl =>
    if e.is_comment then e :: scatter es repl
    else
      match repl with
      | [] => e :: scatter es []
      | r :: rs => r :: scatter es rs

/-- Model of translate_subtitle in app.py around an abstract batch provider:
a document with no dialogue events fails with no output file, modelled by
none. -/
def translate_subtitle_model (dual : Bool) (bs : Nat)
    (provider : List Str → List Str) (events : List Event) : Option (List Event) :=
  if (events.filter (fun e => !e.is_comment)).isEmpty then none
  else
    some (scatter events
      (translate_batches dual bs provider (events.filter (fun e => !e.is_comment))))
theorem breakAt_eq_none (ch : Char) : ∀ s : Str, breakAt ch s = none ↔ ch ∉ s := by
  intro s
  induction s with
  | nil => simp [breakAt]
  | cons c cs ih =>
    by_cases h : c = ch
    · subst h
      simp [breakAt]
    · cases hb : breakAt ch cs with
      | none =>
        have hncs : ch ∉ cs := ih.mp hb
        simp only [breakAt, if_neg h, hb, List.mem_cons]
        constructor
        · intro _ hmem
          rcases hmem with h1 | h2
          · exact h h1.symm
          · exact hncs h2
        · intro _
          trivial
      | some p =>
        have hmem : ch ∈ cs := by
          by_contra hn
          rw [← ih] at hn
          rw [hn] at hb
          cases hb
        simp only [breakAt, if_neg h, hb, List.mem_cons]
        constructor
        · intro hcontra
          cases hcontra
        · intro hn
          exact absurd (Or.inr hmem) hn

theorem breakAt_some (ch : Char) :
    ∀ s a b : Str, breakAt ch s = some (a, b) → s = a ++ ch :: b ∧ ch ∉ a := by
  intro s
  induction s with
  | nil => intro a b h; cases h
  | cons c cs ih =>
    intro a b h
    by_cases hc : c = ch
    · have he : breakAt ch (c :: cs) = some ([], cs) := by simp [breakAt, hc]
      rw [he] at h
      simp only [Option.some.injEq, Prod.mk.injEq] at h
      obtain ⟨h1, h2⟩ := h
      subst h1
      subst h2
      simp [hc]
    · cases hb2 : breakAt ch cs with
      | none => simp [breakAt, hc, hb2] at h
      | some p =>
        obtain ⟨a2, b2⟩ := p
        simp only [breakAt, if_neg hc, hb2, Option.some.injEq, Prod.mk.injEq] at h
        obtain ⟨ha, hbb⟩ := h
        obtain ⟨h1, h2⟩ := ih a2 b2 hb2
        subst ha
        subst hbb
        constructor
        · rw [h1]
          simp
        · simp only [List.mem_cons]
          intro hmem
          rcases hmem with h3 | h4
          · exact hc h3.symm
          · exact h2 h4

theorem breakAt_append (ch : Char) :
    ∀ a b : Str, ch ∉ a → breakAt ch (a ++ ch :: b) = some (a, b) := by
  intro a
  induction a with
  | nil => intro b _; simp [breakAt]
  | cons c cs ih =>
    intro b hmem
    have hc : ¬ c = ch := by
      intro h
      exact hmem (by simp [h])
    have hrec := ih b (fun hx => hmem (List.mem_cons_of_mem _ hx))
    simp [breakAt, hc, hrec]
theorem splitTagsF_succ_none (fuel : Nat) (s : Str) (h : breakAt '{' s = none) :
    splitTagsF (fuel + 1) s = [s] := by
  simp [splitTagsF, h]

theorem splitTagsF_succ_noclose (fuel : Nat) (s c r : Str) (h1 : breakAt '{' s = some (c, r))
    (h2 : breakAt '}' r = none) : splitTagsF (fuel + 1) s = [s] := by
  simp [splitTagsF, h1, h2]

theorem splitTagsF_succ_cons (fuel : Nat) (s c r b r2 : Str)
    (h1 : breakAt '{' s = some (c, r)) (h2 : breakAt '}' r = some (b, r2)) :
    splitTagsF (fuel + 1) s = c :: ('{' :: (b ++ ['}'])) :: splitTagsF fuel r2 := by
  simp [splitTagsF, h1, h2]

theorem splitTagsF_mono :
    ∀ f1 f2 (s : Str), s.length ≤ f1 → s.length ≤ f2 → splitTagsF f1 s = splitTagsF f2 s := by
  intro f1
  induction f1 with
  | zero =>
    intro f2 s h1 _
    have hs : s = [] := List.length_eq_zero.mp (Nat.le_zero.mp h1)
    subst hs
    cases f2 with
    | zero => rfl
    | succ f => simp [splitTagsF, breakAt]
  | succ f ih =>
    intro f2 s h1 h2
    cases f2 with
    | zero =>
      have hs : s = [] := List.length_eq_zero.mp (Nat.le_zero.mp h2)
      subst hs
      simp [splitTagsF, breakAt]
    | succ f2' =>
      cases hb1 : breakAt '{' s with
      | none => rw [splitTagsF_succ_none f s hb1, splitTagsF_succ_none f2' s hb1]
      | some p =>
        obtain ⟨c, r⟩ := p
        cases hb2 : breakAt '}' r with
        | none =>
          rw [splitTagsF_succ_noclose f s c r hb1 hb2, splitTagsF_succ_noclose f2' s c r hb1 hb2]
        | some q =>
          obtain ⟨b, r2⟩ := q
          have hs := (breakAt_some '{' s c r hb1).1
          have hr := (breakAt_some '}' r b r2 hb2).1
          have hlen : r2.length + 2 ≤ s.length := by
            rw [hs, hr]
            simp [List.length_append]
            omega
          have e1 : r2.length ≤ f := by omega
          have e2 : r2.length ≤ f2' := by omega
          rw [splitTagsF_succ_cons f s c r b r2 hb1 hb2,
            splitTagsF_succ_cons f2' s c r b r2 hb1 hb2, ih f2' r2 e1 e2]

theorem splitTags_of_none (s : Str) (h : breakAt '{' s = none) : splitTags s = [s] := by
  cases s with
  | nil => rfl
  | cons c cs => simp [splitTags, splitTagsF, h]

theorem splitTags_of_noclose (s c r : Str) (h1 : breakAt '{' s = some (c, r))
    (h2 : breakAt '}' r = none) : splitTags s = [s] := by
  cases s with
  | nil => cases h1
  | cons x xs => simp [splitTags, splitTagsF, h1, h2]

theorem splitTags_cons (s c r b r2 : Str) (h1 : breakAt '{' s = some (c, r))
    (h2 : breakAt '}' r = some (b, r2)) :
    splitTags s = c :: ('{' :: (b ++ ['}'])) :: splitTags r2 := by
  cases s with
  | nil => cases h1
  | cons x xs =>
    have hs := (breakAt_some '{' (x :: xs) c r h1).1
    have hr := (breakAt_some '}' r b r2 h2).1
    have hlen : r2.length ≤ xs.length := by
      have : (x :: xs).length = c.length + 1 + (b.length + 1 + r2.length) := by
        rw [hs, hr]
        simp [List.length_append]
        omega
      simp only [List.length_cons] at this
      omega
    simp only [splitTags, List.length_cons, splitTagsF, h1, h2]
    rw [splitTagsF_mono xs.length r2.length r2 hlen (Nat.le_refl _)]

theorem splitTags_flatten : ∀ n (s : Str), s.length ≤ n → (splitTags s).flatten = s := by
  intro n
  induction n with
  | zero =>
    intro s h
    have hs : s = [] := List.length_eq_zero.mp (Nat.le_zero.mp h)
    subst hs
    rfl
  | succ nn ih =>
    intro s h
    cases hb1 : breakAt '{' s with
    | none =>
      rw [splitTags_of_none s hb1]
      simp
    | some p =>
      obtain ⟨c, r⟩ := p
      cases hb2 : breakAt '}' r with
      | none =>
        rw [splitTags_of_noclose s c r hb1 hb2]
        simp
      | some q =>
        obtain ⟨b, r2⟩ := q
        rw [splitTags_cons s c r b r2 hb1 hb2]
        have hs := (breakAt_some '{' s c r hb1).1
        have hr := (breakAt_some '}' r b r2 hb2).1
        have hlen : r2.length ≤ nn := by
          have hsl : s.length ≤ nn + 1 := h
          rw [hs, hr] at hsl
          simp [List.length_append] at hsl
          omega
        simp only [List.flatten_cons]
        rw [ih r2 hlen, hs, hr]
        simp

theorem splitTags_flatten_self (s : Str) : (splitTags s).flatten = s :=
  splitTags_flatten s.length s (Nat.le_refl _)
theorem endsClose_append_single : ∀ (a : Str) (x : Char),
    endsClose (a ++ [x]) = decide (x = '}') := by
  intro a
  induction a with
  | nil => intro x; rfl
  | cons c cs ih =>
    intro x
    cases cs with
    | nil => rfl
    | cons d ds =>
      have hstep : endsClose (c :: d :: (ds ++ [x])) = endsClose (d :: (ds ++ [x])) := rfl
      simp only [List.cons_append]
      rw [hstep]
      exact ih x

theorem isTag_tagform (b : Str) : isTag ('{' :: (b ++ ['}'])) = true := by
  unfold isTag startsOpen
  have h1 : endsClose ('{' :: (b ++ ['}'])) = true := by
    have : '{' :: (b ++ ['}']) = ('{' :: b) ++ ['}'] := by simp
    rw [this, endsClose_append_single]
    simp
  rw [h1]
  simp

theorem isTag_of_no_open (p : Str) (hp : '{' ∉ p) : isTag p = false := by
  cases p with
  | nil => rfl
  | cons c cs =>
    have hc : ¬ c = '{' := by
      intro h
      exact hp (by simp [h])
    simp [isTag, startsOpen, hc]

theorem isTag_of_noclose (s c r : Str) (h1 : breakAt '{' s = some (c, r))
    (h2 : breakAt '}' r = none) : isTag s = false := by
  obtain ⟨hs, _⟩ := breakAt_some '{' s c r h1
  have hr : '}' ∉ r := (breakAt_eq_none '}' r).mp h2
  cases hrr : r with
  | nil =>
    subst hrr
    have : s = c ++ ['{'] := hs
    rw [this]
    cases c with
    | nil => rfl
    | cons x xs =>
      simp [isTag]
      intro _
      have : endsClose ((x :: xs) ++ ['{']) = decide ('{' = '}') :=
        endsClose_append_single (x :: xs) '{'
      simp at this
      exact this
  | cons y ys =>
    have hyne : r ≠ [] := by rw [hrr]; simp
    have hlast : r.dropLast ++ [r.getLast hyne] = r := List.dropLast_append_getLast hyne
    have hmem : r.getLast hyne ∈ r := List.getLast_mem hyne
    have hne : ¬ (r.getLast hyne = '}') := fun hx => hr (hx ▸ hmem)
    have hform : s = (c ++ '{' :: r.dropLast) ++ [r.getLast hyne] := by
      rw [hs]
      conv_lhs => rw [← hlast]
      simp
    rw [hform]
    simp only [isTag]
    have he : endsClose ((c ++ '{' :: r.dropLast) ++ [r.getLast hyne]) =
        decide (r.getLast hyne = '}') := endsClose_append_single _ _
    rw [he]
    simp [hne]
theorem isBlank_false_of_mem_open (s : Str) (h : '{' ∈ s) : isBlank s = false := by
  unfold isBlank
  rw [List.all_eq_false]
  exact ⟨'{', h, by decide⟩

theorem translate_one_part_tag (tr : Translator) (p : Str) (h : isTag p = true) :
    translate_one_part tr p = p := by
  unfold translate_one_part translate_one_part_c
  rw [h]
  rfl

theorem translate_one_part_no_open (tr : Translator)
    (htr : ∀ s u, tr s = Except.ok (some u) → '{' ∉ u)
    (part : Str) (hp : '{' ∉ part) : '{' ∉ translate_one_part tr part := by
  unfold translate_one_part translate_one_part_c
  split
  · exact hp
  · split
    · cases htr2 : tr part with
      | error e => exact hp
      | ok t =>
        cases t with
        | none => exact hp
        | some u =>
          simp only
          split
          · exact hp
          · exact htr part u htr2
    · exact hp

theorem tagsOf_of_no_open (p : Str) (hp : '{' ∉ p) : tagsOf p = [] := by
  have h0 : breakAt '{' p = none := (breakAt_eq_none '{' p).mpr hp
  unfold tagsOf
  rw [splitTags_of_none p h0]
  simp [isTag_of_no_open p hp]

theorem tagsOf_nontag_output (tr : Translator)
    (htr : ∀ s u, tr s = Except.ok (some u) → '{' ∉ u)
    (s : Str) (hts : isTag s = false) (hT : tagsOf s = []) :
    tagsOf (translate_one_part tr s) = [] := by
  unfold translate_one_part translate_one_part_c
  rw [hts]
  simp only [Bool.false_eq_true, if_false]
  split
  · cases htr2 : tr s with
    | error e => exact hT
    | ok t =>
      cases t with
      | none => exact hT
      | some u =>
        simp only
        split
        · exact hT
        · exact tagsOf_of_no_open u (htr s u htr2)
  · exact hT

theorem splitTags_reassemble (c b X : Str) (hc : '{' ∉ c) (hb : '}' ∉ b) :
    splitTags (c ++ (('{' :: (b ++ ['}'])) ++ X)) = c :: ('{' :: (b ++ ['}'])) :: splitTags X := by
  have ha : c ++ (('{' :: (b ++ ['}'])) ++ X) = c ++ '{' :: (b ++ '}' :: X) := by simp
  rw [ha]
  have h1 : breakAt '{' (c ++ '{' :: (b ++ '}' :: X)) = some (c, b ++ '}' :: X) :=
    breakAt_append '{' c (b ++ '}' :: X) hc
  have h2 : breakAt '}' (b ++ '}' :: X) = some (b, X) := breakAt_append '}' b X hb
  rw [splitTags_cons (c ++ '{' :: (b ++ '}' :: X)) c (b ++ '}' :: X) b X h1 h2]
theorem runParts_tags (tr : Translator)
    (htr : ∀ s u, tr s = Except.ok (some u) → '{' ∉ u) :
    ∀ n (s : Str), s.length ≤ n → tagsOf (runParts tr s) = tagsOf s := by
  intro n
  induction n with
  | zero =>
    intro s h
    have hs : s = [] := List.length_eq_zero.mp (Nat.le_zero.mp h)
    subst hs
    have h0 : breakAt '{' ([] : Str) = none := rfl
    have hne : '{' ∉ ([] : Str) := by simp
    unfold runParts
    rw [splitTags_of_none [] h0]
    simp only [List.map_cons, List.map_nil, List.flatten_cons, List.flatten_nil,
      List.append_nil]
    rw [tagsOf_of_no_open _ (translate_one_part_no_open tr htr [] hne)]
    rw [tagsOf_of_no_open [] hne]
  | succ nn ih =>
    intro s h
    cases hb1 : breakAt '{' s with
    | none =>
      have hns : '{' ∉ s := (breakAt_eq_none '{' s).mp hb1
      unfold runParts
      rw [splitTags_of_none s hb1]
      simp only [List.map_cons, List.map_nil, List.flatten_cons, List.flatten_nil,
        List.append_nil]
      rw [tagsOf_of_no_open _ (translate_one_part_no_open tr htr s hns)]
      rw [tagsOf_of_no_open s hns]
    | some p =>
      obtain ⟨c, r⟩ := p
      cases hb2 : breakAt '}' r with
      | none =>
        have hts : isTag s = false := isTag_of_noclose s c r hb1 hb2
        have hT : tagsOf s = [] := by
          unfold tagsOf
          rw [splitTags_of_noclose s c r hb1 hb2]
          simp [hts]
        unfold runParts
        rw [splitTags_of_noclose s c r hb1 hb2]
        simp only [List.map_cons, List.map_nil, List.flatten_cons, List.flatten_nil,
          List.append_nil]
        rw [tagsOf_nontag_output tr htr s hts hT, hT]
      | some q =>
        obtain ⟨b, r2⟩ := q
        obtain ⟨hs, hcno⟩ := breakAt_some '{' s c r hb1
        obtain ⟨hr, hbno⟩ := breakAt_some '}' r b r2 hb2
        have hlen : r2.length ≤ nn := by
          have hsl : s.length ≤ nn + 1 := h
          rw [hs, hr] at hsl
          simp [List.length_append] at hsl
          omega
        have hsplit := splitTags_cons s c r b r2 hb1 hb2
        unfold runParts
        rw [hsplit]
        simp only [List.map_cons, List.flatten_cons]
        rw [translate_one_part_tag tr ('{' :: (b ++ ['}'])) (isTag_tagform b)]
        have hcop : '{' ∉ translate_one_part tr c := translate_one_part_no_open tr htr c hcno
        have hreasm := splitTags_reassemble (translate_one_part tr c) b
          (((splitTags r2).map (translate_one_part tr)).flatten) hcop hbno
        unfold tagsOf
        rw [hreasm, hsplit]
        simp only [List.filter_cons]
        rw [isTag_of_no_open _ hcop, isTag_of_no_open c hcno, isTag_tagform b]
        simp only [Bool.false_eq_true, if_false, if_true]
        have hrec := ih r2 hlen
        unfold runParts tagsOf at hrec
        rw [hrec]


theorem map_fix (f : Str → Str) : ∀ l : List Str, (∀ p ∈ l, f p = p) → l.map f = l := by
  intro l
  induction l with
  | nil => intro _; rfl
  | cons x xs ih =>
    intro h
    simp only [List.map_cons]
    rw [h x (by simp), ih (fun p hp => h p (by simp [hp]))]

/-- Claim C1 does not hold for every injected translation function: a
translation function whose returned string contains a brace-delimited span of
its own changes the sequence of tag spans of the output. -/
theorem c1_counterexample :
    ¬ tagsOf (translate_text ['h', 'i'] trBrace) = tagsOf ['h', 'i'] := by decide

/-- Claim C1, amended: for every input line and every injected translation
function whose returned strings never contain a left brace character, the
sequence and content of the tag spans extracted from the output of
translate_text is identical, in order and content, to the sequence of tag
spans extracted from the input line. -/
theorem c1_tag_spans_preserved (text : Str) (tr : Translator)
    (htr : ∀ s u, tr s = Except.ok (some u) → '{' ∉ u) :
    tagsOf (translate_text text tr) = tagsOf text := by
  unfold translate_text
  split
  · rfl
  · exact runParts_tags tr htr text.length text (Nat.le_refl _)

/-- Claim C1 witness: the amended theorem applied to a concrete tagged line
and a concrete brace-free translation function. -/
theorem c1_tag_spans_preserved_witness :
    (∀ s u, trConst s = Except.ok (some u) → '{' ∉ u) ∧
      tagsOf (translate_text ['h', '{', 'x', '}', 'i'] trConst) =
        tagsOf ['h', '{', 'x', '}', 'i'] := by
  constructor
  · intro s u h
    injection h with h1
    injection h1 with h2
    rw [← h2]
    decide
  · exact c1_tag_spans_preserved ['h', '{', 'x', '}', 'i'] trConst
      (fun s u h => by
        injection h with h1
        injection h1 with h2
        rw [← h2]
        decide)

theorem translate_one_part_id (p : Str) : translate_one_part trId p = p := by
  unfold translate_one_part translate_one_part_c trId
  split
  · rfl
  · split
    · simp
    · rfl

/-- Claim C2: translating a line with the identity translation function, which
returns each content span unchanged and never fails, returns a string equal to
the original input line. -/
theorem c2_identity_roundtrip (text : Str) : translate_text text trId = text := by
  unfold translate_text
  split
  · rfl
  · rw [map_fix _ (splitTags text) (fun p _ => translate_one_part_id p),
      splitTags_flatten_self]

theorem translate_one_part_trFail (p : Str) : translate_one_part trFail p = p := by
  unfold translate_one_part translate_one_part_c trFail
  split
  · rfl
  · split
    · rfl
    · rfl

theorem google_part_trFail (src tgt : Str) (st : GState) (p : Str) (hc : st.cache = []) :
    ∃ n, google_part trFail src tgt st p = (some p, ⟨[], n⟩) := by
  obtain ⟨c0, n0⟩ := st
  simp only at hc
  subst hc
  unfold google_part
  by_cases h1 : isTag p
  · exact ⟨n0, by simp [h1]⟩
  · by_cases h2 : isBlank p
    · refine ⟨n0, ?_⟩
      simp [h1, h2]
    · refine ⟨n0 + 1, ?_⟩
      simp [h1, h2, lookupCache, trFail]

theorem google_parts_trFail (src tgt : Str) :
    ∀ (ps : List Str) (st : GState), st.cache = [] →
      (google_parts trFail src tgt st ps).1 = ps.map some ∧
        (google_parts trFail src tgt st ps).2.cache = [] := by
  intro ps
  induction ps with
  | nil =>
    intro st hc
    exact ⟨rfl, hc⟩
  | cons p ps2 ih =>
    intro st hc
    obtain ⟨n, hn⟩ := google_part_trFail src tgt st p hc
    unfold google_parts
    rw [hn]
    obtain ⟨h1, h2⟩ := ih ⟨[], n⟩ rfl
    simp only [List.map_cons]
    exact ⟨by rw [h1], h2⟩

theorem joinPy_map_some : ∀ l : List Str, joinPy (l.map some) = some l.flatten := by
  intro l
  induction l with
  | nil => rfl
  | cons s rest ih =>
    simp only [List.map_cons, joinPy, ih, List.flatten_cons]
    rfl

theorem google_text_trFail (src tgt : Str) (st : GState) (t : Str) (hc : st.cache = []) :
    (google_text trFail src tgt st t).1 = some t ∧
      (google_text trFail src tgt st t).2.cache = [] := by
  unfold google_text
  split
  · exact ⟨rfl, hc⟩
  · obtain ⟨h1, h2⟩ := google_parts_trFail src tgt (splitTags t) st hc
    exact ⟨by rw [h1, joinPy_map_some, splitTags_flatten_self], h2⟩

theorem google_texts_trFail (src tgt : Str) :
    ∀ (texts : List Str) (st : GState), st.cache = [] →
      (google_texts trFail src tgt st texts).1 = some texts := by
  intro texts
  induction texts with
  | nil =>
    intro st hc
    rfl
  | cons t ts ih =>
    intro st hc
    obtain ⟨h1, h2⟩ := google_text_trFail src tgt st t hc
    unfold google_texts
    rw [h1]
    simp only
    rw [ih _ h2]
    rfl

/-- Claim C3: a per-span translation failure keeps that span's original source
text in the output while the remaining spans are still processed, with an
always-raising translation function the whole line is returned unchanged, and
in the batched Google path an always-raising translation function leaves every
text of the batch unchanged without aborting the batch or the run. -/
theorem c3_failure_graceful :
    (∀ text : Str, translate_text text trFail = text) ∧
      (∀ (tr : Translator) (part : Str), tr part = Except.error () →
        translate_one_part tr part = part) ∧
      (∀ (source_lang tgt : Str) (st : GState) (texts : List Str), st.cache = [] →
        (translate_with_google_batch trFail source_lang tgt st texts).1 = some texts) := by
  refine ⟨?_, ?_, ?_⟩
  · intro text
    unfold translate_text
    split
    · rfl
    · rw [map_fix _ (splitTags text) (fun p _ => translate_one_part_trFail p),
        splitTags_flatten_self]
  · intro tr part h
    unfold translate_one_part translate_one_part_c
    split
    · rfl
    · split
      · rw [h]
      · rfl
  · intro source_lang tgt st texts hc
    unfold translate_with_google_batch
    exact google_texts_trFail _ tgt texts st hc

/-- Claim C3 witness: the per-span fallback and the batched Google path at
concrete inputs with the always-raising translation function. -/
theorem c3_failure_graceful_witness :
    translate_one_part trFail ['h', 'i'] = ['h', 'i'] ∧
      (translate_with_google_batch trFail strAuto ['a', 'r'] ⟨[], 0⟩
          [['h', 'i']]).1 = some [['h', 'i']] :=
  ⟨c3_failure_graceful.2.1 trFail ['h', 'i'] rfl,
    c3_failure_graceful.2.2 strAuto ['a', 'r'] ⟨[], 0⟩ [['h', 'i']] rfl⟩

theorem isTag_false_of_blank (p : Str) (hb : isBlank p = true) : isTag p = false := by
  cases p with
  | nil => rfl
  | cons c cs =>
    have hcs : pyIsSpace c = true :=
      (List.all_eq_true.mp hb) c (by simp)
    have hcne : ¬ c = '{' := by
      intro hq
      rw [hq] at hcs
      exact absurd hcs (by decide)
    simp [isTag, startsOpen, hcne]

/-- Claim C4: every span that is empty or consists only of whitespace is
passed through to the output unchanged and is never submitted to the injected
translation function, in the per-span step of translate_text and in the
per-span step of the cached Google path. -/
theorem c4_blank_spans_passed_through :
    (∀ (tr : Translator) (part : Str), isBlank part = true →
      translate_one_part_c tr part = (part, 0)) ∧
      (∀ (tr : Translator) (src tgt : Str) (st : GState) (part : Str),
        isBlank part = true → google_part tr src tgt st part = (some part, st)) := by
  constructor
  · intro tr part hb
    unfold translate_one_part_c
    rw [isTag_false_of_blank part hb, hb]
    simp
  · intro tr src tgt st part hb
    unfold google_part
    rw [isTag_false_of_blank part hb, hb]
    simp

/-- Claim C4 witness: a whitespace-only span passed through both per-span
steps at concrete inputs. -/
theorem c4_blank_spans_passed_through_witness :
    (isBlank [' '] = true ∧ translate_one_part_c trConst [' '] = ([' '], 0)) ∧
      google_part trConst strAuto ['a', 'r'] ⟨[], 0⟩ [' '] = (some [' '], ⟨[], 0⟩) :=
  ⟨⟨by decide, c4_blank_spans_passed_through.1 trConst [' '] (by decide)⟩,
    c4_blank_spans_passed_through.2 trConst strAuto ['a', 'r'] ⟨[], 0⟩ [' '] (by decide)⟩

/-- Claim C5: when a content span is translated on a cache miss and the raw
result is stored under its fingerprint key, a second occurrence of the same
span with the same source language, target language and provider returns the
cached value with the state unchanged, so the translation function is not
invoked again. -/
theorem c5_cache_idempotent (tr : Translator) (src tgt : Str) (st : GState)
    (part : Str) (v : Option Str)
    (h1 : isTag part = false) (h2 : isBlank part = false)
    (h3 : lookupCache st.cache (get_cache_key part src tgt strGoogle) = none)
    (h4 : tr part = Except.ok v) :
    google_part tr src tgt (google_part tr src tgt st part).2 part
      = (v, (google_part tr src tgt st part).2) := by
  have hst : (google_part tr src tgt st part).2 =
      ⟨(get_cache_key part src tgt strGoogle, v) :: st.cache, st.calls + 1⟩ := by
    simp [google_part, h1, h2, h3, h4]
  rw [hst]
  simp [google_part, h1, h2, lookupCache]

/-- Claim C5 witness: the idempotence theorem applied to a concrete span, a
concrete language pair and the empty starting cache. -/
theorem c5_cache_idempotent_witness :
    (isTag ['a'] = false ∧ isBlank ['a'] = false ∧
      lookupCache (⟨[], 0⟩ : GState).cache
          (get_cache_key ['a'] strAuto ['a', 'r'] strGoogle) = none ∧
      trConst ['a'] = Except.ok (some ['T'])) ∧
      google_part trConst strAuto ['a', 'r']
          (google_part trConst strAuto ['a', 'r'] ⟨[], 0⟩ ['a']).2 ['a']
        = (some ['T'], (google_part trConst strAuto ['a', 'r'] ⟨[], 0⟩ ['a']).2) :=
  ⟨⟨by decide, by decide, rfl, rfl⟩,
    c5_cache_idempotent trConst strAuto ['a', 'r'] ⟨[], 0⟩ ['a'] (some ['T'])
      (by decide) (by decide) rfl rfl⟩

/-- Claim C10: on a cache miss the raw translator result, empty or null
included, is stored in the cache under the span's fingerprint, while the
fallback to the original span text applies only to the appended value on that
miss; a later cache hit for the same span appends the stored raw value, empty
or null included, instead of falling back to the original span text. -/
theorem c10_cache_stores_raw (tr : Translator) (src tgt : Str) (st : GState)
    (part : Str) (v : Option Str)
    (h1 : isTag part = false) (h2 : isBlank part = false) :
    (lookupCache st.cache (get_cache_key part src tgt strGoogle) = none →
      tr part = Except.ok v →
      (google_part tr src tgt st part).2.cache
          = (get_cache_key part src tgt strGoogle, v) :: st.cache ∧
        ((v = none ∨ v = some []) → (google_part tr src tgt st part).1 = some part)) ∧
      (lookupCache st.cache (get_cache_key part src tgt strGoogle) = some v →
        google_part tr src tgt st part = (v, st)) := by
  constructor
  · intro h3 h4
    constructor
    · simp [google_part, h1, h2, h3, h4]
    · intro hv
      rcases hv with hv | hv <;> subst hv <;> simp [google_part, h1, h2, h3, h4]
  · intro h3
    simp [google_part, h1, h2, h3]

/-- Claim C10 witness: a translator returning the empty string has that empty
result stored under the fingerprint while the original span is appended, and a
later hit on a stored empty value appends the stored empty value. -/
theorem c10_cache_stores_raw_witness :
    ((google_part trEmpty strAuto ['a', 'r'] ⟨[], 0⟩ ['a']).2.cache
        = [(get_cache_key ['a'] strAuto ['a', 'r'] strGoogle, some [])] ∧
      (google_part trEmpty strAuto ['a', 'r'] ⟨[], 0⟩ ['a']).1 = some ['a']) ∧
      google_part trEmpty strAuto ['a', 'r']
          ⟨[(get_cache_key ['a'] strAuto ['a', 'r'] strGoogle, some [])], 5⟩ ['a']
        = (some [],
            ⟨[(get_cache_key ['a'] strAuto ['a', 'r'] strGoogle, some [])], 5⟩) :=
  ⟨⟨((c10_cache_stores_raw trEmpty strAuto ['a', 'r'] ⟨[], 0⟩ ['a'] (some [])
        (by decide) (by decide)).1 rfl rfl).1,
    ((c10_cache_stores_raw trEmpty strAuto ['a', 'r'] ⟨[], 0⟩ ['a'] (some [])
        (by decide) (by decide)).1 rfl rfl).2 (Or.inr rfl)⟩,
    (c10_cache_stores_raw trEmpty strAuto ['a', 'r']
        ⟨[(get_cache_key ['a'] strAuto ['a', 'r'] strGoogle, some [])], 5⟩ ['a']
        (some []) (by decide) (by decide)).2 (by decide)⟩

theorem calls_eq_filter (tr : Translator) :
    ∀ events : List Event, translate_subtitles_calls tr events =
      (events.filter (fun e => !e.is_comment && !e.text.isEmpty)).length := by
  intro events
  induction events with
  | nil => rfl
  | cons e es ih =>
    have ih2 : (es.map (fun x => (translate_event_c tr x).2)).sum =
        (es.filter (fun x => !x.is_comment && !x.text.isEmpty)).length := ih
    simp only [translate_subtitles_calls, List.map_cons, List.sum_cons, List.filter_cons]
    by_cases hcom : e.is_comment
    · have hhead : (translate_event_c tr e).2 = 0 := by simp [translate_event_c, hcom]
      have hcond : (!e.is_comment && !e.text.isEmpty) = false := by simp [hcom]
      rw [hhead, hcond, ih2]
      simp
    · by_cases hemp : e.text.isEmpty
      · have hhead : (translate_event_c tr e).2 = 0 := by
          simp [translate_event_c, hcom, hemp]
        have hcond : (!e.is_comment && !e.text.isEmpty) = false := by simp [hcom, hemp]
        rw [hhead, hcond, ih2]
        simp
      · have hhead : (translate_event_c tr e).2 = 1 := by
          simp [translate_event_c, hcom, hemp]
        have hcond : (!e.is_comment && !e.text.isEmpty) = true := by simp [hcom, hemp]
        rw [hhead, hcond, ih2]
        simp [Nat.add_comm]

theorem scatter_length : ∀ (es repl : List Event), (scatter es repl).length = es.length := by
  intro es
  induction es with
  | nil => intro repl; rfl
  | cons e es2 ih =>
    intro repl
    unfold scatter
    by_cases hc : e.is_comment
    · simp [hc, ih]
    · cases repl with
      | nil => simp [hc, ih]
      | cons r rs => simp [hc, ih]

theorem scatter_getElem_comment :
    ∀ (es repl : List Event) (i : Nat) (e : Event),
      es[i]? = some e → e.is_comment = true → (scatter es repl)[i]? = some e := by
  intro es
  induction es with
  | nil =>
    intro repl i e hi _
    simp at hi
  | cons e0 es2 ih =>
    intro repl i e hi hc
    by_cases h0 : e0.is_comment
    · cases i with
      | zero =>
        simp only [List.getElem?_cons_zero, Option.some.injEq] at hi
        subst hi
        simp [scatter, h0]
      | succ j =>
        simp only [List.getElem?_cons_succ] at hi
        have hrec := ih repl j e hi hc
        simp [scatter, h0, List.getElem?_cons_succ, hrec]
    · cases repl with
      | nil =>
        cases i with
        | zero =>
          simp only [List.getElem?_cons_zero, Option.some.injEq] at hi
          subst hi
          exact absurd hc h0
        | succ j =>
          simp only [List.getElem?_cons_succ] at hi
          have hrec := ih [] j e hi hc
          simp [scatter, h0, List.getElem?_cons_succ, hrec]
      | cons r rs =>
        cases i with
        | zero =>
          simp only [List.getElem?_cons_zero, Option.some.injEq] at hi
          subst hi
          exact absurd hc h0
        | succ j =>
          simp only [List.getElem?_cons_succ] at hi
          have hrec := ih rs j e hi hc
          simp [scatter, h0, List.getElem?_cons_succ, hrec]

/-- Claim C6: the translation loop keeps the number of events, leaves every
comment event untouched, and invokes translate_text exactly once per
non-comment event with nonempty text; in particular a document of three
dialogue events with nonempty text and one comment event causes exactly three
invocations, and the web variant likewise keeps the number of events and
leaves comment events untouched. -/
theorem c6_comments_untouched (tr : Translator) (events : List Event)
    (dual : Bool) (bs : Nat) (provider : List Str → List Str) :
    (translate_subtitles_run tr events).length = events.length ∧
      (∀ (i : Nat) (e : Event), events[i]? = some e → e.is_comment = true →
        (translate_subtitles_run tr events)[i]? = some e) ∧
      translate_subtitles_calls tr events =
        (events.filter (fun e => !e.is_comment && !e.text.isEmpty)).length ∧
      (∀ d1 d2 d3 ce : Event,
        d1.is_comment = false → d2.is_comment = false → d3.is_comment = false →
        ce.is_comment = true → d1.text.isEmpty = false → d2.text.isEmpty = false →
        d3.text.isEmpty = false →
        translate_subtitles_calls tr [d1, d2, d3, ce] = 3) ∧
      (∀ res : List Event, translate_subtitle_model dual bs provider events = some res →
        res.length = events.length ∧
        ∀ (i : Nat) (e : Event), events[i]? = some e → e.is_comment = true →
          res[i]? = some e) := by
  refine ⟨by simp [translate_subtitles_run], ?_, calls_eq_filter tr events, ?_, ?_⟩
  · intro i e hi hc
    unfold translate_subtitles_run
    rw [List.getElem?_map _ events i, hi]
    simp [translate_event_c, hc]
  · intro d1 d2 d3 ce h1 h2 h3 h4 h5 h6 h7
    rw [calls_eq_filter]
    simp [List.filter_cons, h1, h2, h3, h4, h5, h6, h7]
  · intro res hres
    unfold translate_subtitle_model at hres
    split at hres
    · cases hres
    · injection hres with hres2
      subst hres2
      exact ⟨scatter_length events _,
        fun i e hi hc => scatter_getElem_comment events _ i e hi hc⟩

/-- Claim C6 witness: a concrete document with one dialogue and one comment
event keeps the comment untouched, and a concrete document with three
dialogue events and one comment event causes exactly three invocations. -/
theorem c6_comments_untouched_witness :
    ((⟨['b'], true⟩ : Event).is_comment = true ∧
      (translate_subtitles_run trConst [⟨['a'], false⟩, ⟨['b'], true⟩])[1]?
        = some ⟨['b'], true⟩) ∧
      translate_subtitles_calls trConst
        [⟨['a'], false⟩, ⟨['a'], false⟩, ⟨['a'], false⟩, ⟨['b'], true⟩] = 3 :=
  ⟨⟨rfl, (c6_comments_untouched trConst [⟨['a'], false⟩, ⟨['b'], true⟩] false 1
      (fun l => l)).2.1 1 ⟨['b'], true⟩ rfl rfl⟩,
    (c6_comments_untouched trConst [] false 1 (fun l => l)).2.2.2.1 ⟨['a'], false⟩
      ⟨['a'], false⟩ ⟨['a'], false⟩ ⟨['b'], true⟩ rfl rfl rfl rfl rfl rfl rfl⟩

/-- Claim C8: when the document contains no dialogue events, every event a
comment or none at all, both run variants report failure and produce no
output file, and no translation is attempted. -/
theorem c8_no_dialogue_no_output (tr : Translator) (dual : Bool) (bs : Nat)
    (provider : List Str → List Str) (events : List Event)
    (h : events.all (fun e => e.is_comment) = true) :
    translate_subtitles_model tr events = none ∧
      translate_subtitle_model dual bs provider events = none := by
  have hf : events.filter (fun e => !e.is_comment) = [] := by
    rw [List.filter_eq_nil_iff]
    intro a ha
    have hx := (List.all_eq_true.mp h) a ha
    simp [hx]
  constructor
  · unfold translate_subtitles_model
    rw [hf]
    rfl
  · unfold translate_subtitle_model
    rw [hf]
    rfl

/-- Claim C8 witness: a concrete document with only one comment event makes
both run variants fail with no output. -/
theorem c8_no_dialogue_no_output_witness :
    ([(⟨['x'], true⟩ : Event)].all (fun e => e.is_comment) = true) ∧
      translate_subtitles_model trConst [⟨['x'], true⟩] = none ∧
      translate_subtitle_model false 1 (fun l => l) [⟨['x'], true⟩] = none :=
  ⟨by decide,
    (c8_no_dialogue_no_output trConst false 1 (fun l => l) [⟨['x'], true⟩] (by decide)).1,
    (c8_no_dialogue_no_output trConst false 1 (fun l => l) [⟨['x'], true⟩] (by decide)).2⟩

theorem apply_batch_length : ∀ (dual : Bool) (es : List Event) (ts : List Str),
    (apply_batch dual es ts).length = es.length := by
  intro dual es
  induction es with
  | nil => intro ts; cases ts <;> rfl
  | cons e es2 ih =>
    intro ts
    cases ts with
    | nil => simp [apply_batch, ih]
    | cons t ts2 => simp [apply_batch, ih]

theorem apply_batch_getElem_beyond :
    ∀ (dual : Bool) (es : List Event) (ts : List Str) (j : Nat) (e : Event),
      es[j]? = some e → ts.length ≤ j → (apply_batch dual es ts)[j]? = some e := by
  intro dual es
  induction es with
  | nil =>
    intro ts j e hj _
    simp at hj
  | cons e0 es2 ih =>
    intro ts j e hj hlen
    cases ts with
    | nil =>
      cases j with
      | zero =>
        simp only [List.getElem?_cons_zero, Option.some.injEq] at hj
        subst hj
        show (e0 :: apply_batch dual es2 [])[0]? = some e0
        exact List.getElem?_cons_zero
      | succ j2 =>
        simp only [List.getElem?_cons_succ] at hj
        show (e0 :: apply_batch dual es2 [])[j2 + 1]? = some e
        rw [List.getElem?_cons_succ]
        exact ih [] j2 e hj (by simp)
    | cons t ts2 =>
      cases j with
      | zero =>
        simp at hlen
      | succ j2 =>
        simp only [List.getElem?_cons_succ] at hj
        show (update_event dual e0 (some t) :: apply_batch dual es2 ts2)[j2 + 1]? = some e
        rw [List.getElem?_cons_succ]
        refine ih ts2 j2 e hj ?_
        simp only [List.length_cons] at hlen
        omega

theorem apply_batch_getElem_within :
    ∀ (dual : Bool) (es : List Event) (ts : List Str) (j : Nat) (e : Event) (t : Str),
      es[j]? = some e → ts[j]? = some t →
      (apply_batch dual es ts)[j]? = some (update_event dual e (some t)) := by
  intro dual es
  induction es with
  | nil =>
    intro ts j e t hj _
    simp at hj
  | cons e0 es2 ih =>
    intro ts j e t hj ht
    cases ts with
    | nil => simp at ht
    | cons t0 ts2 =>
      cases j with
      | zero =>
        simp only [List.getElem?_cons_zero, Option.some.injEq] at hj ht
        subst hj
        subst ht
        show (update_event dual e0 (some t0) :: apply_batch dual es2 ts2)[0]?
          = some (update_event dual e0 (some t0))
        exact List.getElem?_cons_zero
      | succ j2 =>
        simp only [List.getElem?_cons_succ] at hj ht
        show (update_event dual e0 (some t0) :: apply_batch dual es2 ts2)[j2 + 1]? = _
        rw [List.getElem?_cons_succ]
        exact ih ts2 j2 e t hj ht

/-- Claim C7: when a batch call returns fewer translated strings than the
number of submitted event texts, events at indices beyond the returned count
silently keep their original form and no error is raised, while events at
indices below the returned count receive the corresponding translated
string. -/
theorem c7_short_batch_silent (dual : Bool) (batch : List Event) (translated : List Str) :
    (apply_batch dual batch translated).length = batch.length ∧
      (∀ (j : Nat) (e : Event), batch[j]? = some e → translated.length ≤ j →
        (apply_batch dual batch translated)[j]? = some e) ∧
      (∀ (j : Nat) (e : Event) (t : Str), batch[j]? = some e → translated[j]? = some t →
        (apply_batch false batch translated)[j]? = some { e with text := t }) := by
  refine ⟨apply_batch_length dual batch translated, ?_, ?_⟩
  · intro j e hj hlen
    exact apply_batch_getElem_beyond dual batch translated j e hj hlen
  · intro j e t hj ht
    have h := apply_batch_getElem_within false batch translated j e t hj ht
    simpa [update_event] using h

/-- Claim C7 witness: a batch of one event with an empty returned list keeps
the event, and with one returned string the event receives it. -/
theorem c7_short_batch_silent_witness :
    (apply_batch true [⟨['a'], false⟩] ([] : List Str))[0]? = some ⟨['a'], false⟩ ∧
      (apply_batch false [⟨['a'], false⟩] [['b']])[0]? = some ⟨['b'], false⟩ :=
  ⟨(c7_short_batch_silent true [⟨['a'], false⟩] []).2.1 0 ⟨['a'], false⟩ rfl (by decide),
    (c7_short_batch_silent false [⟨['a'], false⟩] [['b']]).2.2 0 ⟨['a'], false⟩ ['b']
      rfl rfl⟩

theorem forall2_append_parts {R : Event → Event → Prop} :
    ∀ {l1 l2 u1 u2 : List Event}, List.Forall₂ R l1 l2 → List.Forall₂ R u1 u2 →
      List.Forall₂ R (l1 ++ u1) (l2 ++ u2) := by
  intro l1 l2 u1 u2 h1 h2
  induction h1 with
  | nil => simpa using h2
  | cons hr _ ih => exact List.Forall₂.cons hr ih

theorem apply_batch_forall2 :
    ∀ (es : List Event) (ts : List Str),
      List.Forall₂ (fun e e2 => e2.is_comment = e.is_comment ∧
        (e2.text = e.text ∨ ∃ t, e2.text = t ++ '\\' :: 'N' :: e.text))
        es (apply_batch true es ts) := by
  intro es
  induction es with
  | nil => intro ts; cases ts <;> exact List.Forall₂.nil
  | cons e es2 ih =>
    intro ts
    cases ts with
    | nil => exact List.Forall₂.cons ⟨rfl, Or.inl rfl⟩ (ih [])
    | cons t ts2 =>
      refine List.Forall₂.cons ⟨rfl, Or.inr ⟨t, ?_⟩⟩ (ih ts2)
      simp [update_event]

theorem translate_batchesF_forall2 (bs : Nat) (provider : List Str → List Str) :
    ∀ (n : Nat) (dials : List Event), dials.length ≤ n →
      List.Forall₂ (fun e e2 => e2.is_comment = e.is_comment ∧
        (e2.text = e.text ∨ ∃ t, e2.text = t ++ '\\' :: 'N' :: e.text))
        dials (translate_batchesF true bs provider n dials) := by
  intro n
  induction n with
  | zero =>
    intro dials h
    have hnil : dials = [] := List.length_eq_zero.mp (Nat.le_zero.mp h)
    subst hnil
    exact List.Forall₂.nil
  | succ nn ih =>
    intro dials h
    cases dials with
    | nil => exact List.Forall₂.nil
    | cons e rest =>
      have h1 := apply_batch_forall2 (e :: rest.take (bs - 1))
        (provider ((e :: rest.take (bs - 1)).map (fun ev => ev.text)))
      have h2 := ih (rest.drop (bs - 1)) (by
        simp only [List.length_drop]
        simp only [List.length_cons] at h
        omega)
      have h3 := forall2_append_parts h1 h2
      have hsplit : (e :: rest.take (bs - 1)) ++ rest.drop (bs - 1) = e :: rest := by
        simp [List.take_append_drop]
      rw [hsplit] at h3
      exact h3

/-- Claim C9: with the dual subtitle flag set, every dialogue event either
keeps its text when no translated string reaches it or carries a text of the
form translated text, then the forced line break marker, then the original
text; and every event that receives translated string t gets exactly t, the
marker and the original text, with the translated text first. -/
theorem c9_dual_mode (bs : Nat) (provider : List Str → List Str) (dials : List Event) :
    List.Forall₂ (fun e e2 => e2.is_comment = e.is_comment ∧
      (e2.text = e.text ∨ ∃ t, e2.text = t ++ '\\' :: 'N' :: e.text))
      dials (translate_batches true bs provider dials) ∧
      (∀ (batch : List Event) (translated : List Str) (j : Nat) (e : Event) (t : Str),
        batch[j]? = some e → translated[j]? = some t →
        (apply_batch true batch translated)[j]?
          = some { e with text := t ++ '\\' :: 'N' :: e.text }) := by
  constructor
  · exact translate_batchesF_forall2 bs provider dials.length dials (Nat.le_refl _)
  · intro batch translated j e t hj ht
    have h := apply_batch_getElem_within true batch translated j e t hj ht
    simpa [update_event] using h

/-- Claim C9 witness: a one-event batch in dual mode receives the translated
string joined to the original text by the forced line break marker. -/
theorem c9_dual_mode_witness :
    (apply_batch true [⟨['o'], false⟩] [['t']])[0]?
      = some ⟨['t', '\\', 'N', 'o'], false⟩ :=
  (c9_dual_mode 1 (fun l => l) []).2 [⟨['o'], false⟩] [['t']] 0 ⟨['o'], false⟩ ['t'] rfl rfl
